import Mathlib

/-!
Verification of `FinderComment.write_uri` from `zuppa/methods/findercomment.py`.

The Python method reads the macOS Finder comment of a file through an
AppleScript capability (`get_comments` / `set_comments` / `clear_comments`),
decides whether the Zotero URI is already present, replaces an existing
Zotero URI token, or writes the URI fresh, and issues at most one mutating
capability call.  We embed the method as a pure function over the file's
current comment (the empty string standing for an absent comment, which
Python treats as falsy), recording the capability calls it issues and the
comment text after the call.  A second embedding threads the possibility of
capability failure (Python exceptions) through `Except`.
-/

namespace Zuppa

/-- Whitespace as matched by Python's regex class `\s` on ASCII text
(`\S` in the pattern `zotero://\S+` is its complement). -/
def isPySpace (c : Char) : Bool :=
  c = ' ' || c = '\t' || c = '\n' || c = '\r' || c = '\x0b' || c = '\x0c'

/-- The marker the code tests with `'zotero://select' in comments`. -/
def zoteroSelect : String := "zotero://select"

/-- The literal part of the regex pattern `zotero://\S+` (9 characters). -/
def zoteroScheme : List Char := ['z', 'o', 't', 'e', 'r', 'o', ':', '/', '/']

/-- Whether the regex `zotero://\S+` matches at the head of `l`: the literal
`zotero://` followed by at least one non-whitespace character. -/
def zMatchAt (l : List Char) : Bool :=
  zoteroScheme.isPrefixOf l &&
    (match l.drop 9 with
     | [] => false
     | d :: _ => !(isPySpace d))

/-- One fuel-indexed scanning pass of Python's
`re.sub('(zotero://\S+)', uri, comments)`: scan left to right; at the
leftmost position where the pattern matches, replace the match (the literal
`zotero://` plus the maximal nonempty run of non-whitespace characters,
since `\S+` is greedy) by `uri` and continue scanning right after the match;
`re.sub` without a `count` argument substitutes every non-overlapping match.
The replacement is inserted verbatim (Zotero URIs contain no backslash, so
template escape processing in the replacement string never applies).
The fuel is only there to make the recursion structural; one unit is spent
per consumed character or match, so `fuel = l.length` never runs out. -/
def reSubAux (uri : List Char) : Nat → List Char → List Char
  | 0, l => l
  | _ + 1, [] => []
  | fuel + 1, c :: rest =>
    if zMatchAt (c :: rest) then
      uri ++ reSubAux uri fuel ((rest.drop 8).dropWhile (fun d => !(isPySpace d)))
    else
      c :: reSubAux uri fuel rest

/-- Embedding of `re.sub('(zotero://\S+)', uri, comments)` on char lists. -/
def reSubZotero (uri l : List Char) : List Char :=
  reSubAux uri l.length l

/-- String version of `re.sub('(zotero://\S+)', uri, comments)`. -/
def reSubZoteroS (uri comments : String) : String :=
  ⟨reSubZotero uri.toList comments.toList⟩

/-- Python's substring test `needle in hay` on char lists: some suffix of
`hay` starts with `needle`. -/
def infixOf (needle : List Char) : List Char → Bool
  | [] => needle.isEmpty
  | c :: rest => needle.isPrefixOf (c :: rest) || infixOf needle rest

/-- Python's substring test `needle in hay` on strings. -/
def containsSub (hay needle : String) : Bool :=
  infixOf needle.toList hay.toList

/-- Python's truthiness of a string: nonempty. -/
def truthy (s : String) : Bool :=
  !(s.toList.isEmpty)

/-- A call issued through the AppleScript capability `_FINDER_SCRIPTS`:
`get_comments`, `clear_comments`, or `set_comments` with its text. -/
inductive CapCall where
  | read : CapCall
  | clear : CapCall
  | write : String → CapCall
deriving DecidableEq

/-- The four user-facing outcomes of `write_uri`, one per `inform`/`warn`
message in the source: "already present", "replacing existing Zotero URI",
"writing Zotero URI", "overwriting Finder comments". -/
inductive Outcome where
  | AlreadyPresent : Outcome
  | Replaced : Outcome
  | Prepended : Outcome
  | ForcedOverwrite : Outcome
deriving DecidableEq

/-- Result of one `write_uri` invocation: the reported outcome, the
capability calls issued in order, and the file's comment afterwards. -/
structure WriteResult where
  outcome : Outcome
  calls : List CapCall
  final : String
deriving DecidableEq

/-- Embedding of `FinderComment.write_uri(self, file, uri, dry_run, overwrite)`.
`comment0` is the Finder comment the capability would return for the file
(`""` for an absent comment).  Mirrors the source line by line:

* `if not overwrite:` read `comments`; if `comments and uri in comments`
  inform and return; elif `comments and 'zotero://select' in comments`
  warn and set `comments = re.sub('(zotero://\S+)', uri, comments)`;
  else inform and set `comments = uri`;
* `else:` if `not dry_run` call `clear_comments`; set `comments = uri`;
* finally `if not dry_run:` call `set_comments(file, comments)`. -/
def write_uri (comment0 uri : String) (dry_run overwrite : Bool) : WriteResult :=
  if overwrite = false then
    let comments := comment0
    if truthy comments && containsSub comments uri then
      ⟨.AlreadyPresent, [.read], comment0⟩
    else
      let res : Outcome × String :=
        if truthy comments && containsSub comments zoteroSelect then
          (.Replaced, reSubZoteroS uri comments)
        else
          (.Prepended, uri)
      if dry_run = false then
        ⟨res.1, [.read, .write res.2], res.2⟩
      else
        ⟨res.1, [.read], comment0⟩
  else
    if dry_run = false then
      ⟨.ForcedOverwrite, [.clear, .write uri], uri⟩
    else
      ⟨.ForcedOverwrite, [], comment0⟩

/-! ### Helper lemmas about the substring test and the substitution -/

theorem infixOf_iff (needle l : List Char) :
    infixOf needle l = true ↔ needle <:+: l := by
  induction l with
  | nil =>
    simp only [infixOf, List.isEmpty_iff, List.infix_nil]
  | cons c rest ih =>
    simp only [infixOf, Bool.or_eq_true, List.isPrefixOf_iff_prefix, ih]
    constructor
    · rintro (h | h)
      · exact h.isInfix
      · exact List.infix_cons h
    · rintro ⟨s, t, hst⟩
      cases s with
      | nil =>
        exact Or.inl ⟨t, by simpa using hst⟩
      | cons a s =>
        simp only [List.cons_append, List.cons.injEq] at hst
        exact Or.inr ⟨s, t, hst.2⟩

theorem toList_ne_nil_of_ne_empty (s : String) (h : s ≠ "") : s.toList ≠ [] := by
  intro hc
  exact h (String.ext hc)

theorem truthy_of_contains (hay needle : String) (hn : needle ≠ "")
    (h : containsSub hay needle = true) : truthy hay = true := by
  rw [containsSub, infixOf_iff] at h
  obtain ⟨s, t, hst⟩ := h
  have : hay.toList ≠ [] := by
    intro he
    rw [he] at hst
    have := List.append_eq_nil.mp (List.append_eq_nil.mp hst).1
    exact toList_ne_nil_of_ne_empty needle hn this.2
  simpa [truthy, List.isEmpty_iff] using this

theorem zMatchAt_of_zsel_isPrefix (l : List Char)
    (h : zoteroSelect.toList <+: l) : zMatchAt l = true := by
  obtain ⟨t, rfl⟩ := h
  rfl

theorem zsel_infix_of_cons (c : Char) (rest : List Char)
    (h : zoteroSelect.toList <:+: c :: rest) (hm : zMatchAt (c :: rest) = false) :
    zoteroSelect.toList <:+: rest := by
  obtain ⟨s, t, hst⟩ := h
  cases s with
  | nil =>
    exfalso
    have hp : zoteroSelect.toList <+: c :: rest := ⟨t, by simpa using hst⟩
    rw [zMatchAt_of_zsel_isPrefix _ hp] at hm
    exact absurd hm (by decide)
  | cons a s =>
    simp only [List.cons_append, List.cons.injEq] at hst
    exact ⟨s, t, hst.2⟩

theorem uri_infix_reSubAux (uri : List Char) (fuel : Nat) :
    ∀ l : List Char, zoteroSelect.toList <:+: l → l.length ≤ fuel →
      uri <:+: reSubAux uri fuel l := by
  induction fuel with
  | zero =>
    intro l h hl
    have : l = [] := List.eq_nil_of_length_eq_zero (Nat.le_zero.mp hl)
    rw [this, List.infix_nil] at h
    exact absurd h (by decide)
  | succ fuel ih =>
    intro l h hl
    match l with
    | [] =>
      rw [List.infix_nil] at h
      exact absurd h (by decide)
    | c :: rest =>
      by_cases hm : zMatchAt (c :: rest) = true
      · rw [reSubAux, if_pos hm]
        exact (List.prefix_append uri _).isInfix
      · have hm' : zMatchAt (c :: rest) = false := Bool.eq_false_iff.mpr hm
        rw [reSubAux, if_neg hm]
        have h2 := zsel_infix_of_cons c rest h hm'
        have hl2 : rest.length ≤ fuel := Nat.le_of_succ_le_succ (by simpa using hl)
        exact List.infix_cons (ih rest h2 hl2)

theorem contains_uri_reSub (uri s : String) (h : containsSub s zoteroSelect = true) :
    containsSub (reSubZoteroS uri s) uri = true := by
  rw [containsSub, infixOf_iff] at h ⊢
  exact uri_infix_reSubAux uri.toList s.toList.length s.toList h (Nat.le_refl _)

theorem final_contains (comment0 uri : String) (hu : uri ≠ "") :
    truthy (write_uri comment0 uri false false).final = true ∧
    containsSub (write_uri comment0 uri false false).final uri = true := by
  by_cases h1 : (truthy comment0 && containsSub comment0 uri) = true
  · rw [write_uri]
    simp only [if_pos rfl, if_pos h1]
    exact ⟨(Bool.and_eq_true _ _).mp h1 |>.1, (Bool.and_eq_true _ _).mp h1 |>.2⟩
  · by_cases h2 : (truthy comment0 && containsSub comment0 zoteroSelect) = true
    · rw [write_uri]
      simp only [if_pos rfl, if_neg h1, if_pos h2]
      have hc := contains_uri_reSub uri comment0 ((Bool.and_eq_true _ _).mp h2).2
      exact ⟨truthy_of_contains _ _ hu hc, hc⟩
    · rw [write_uri]
      simp only [if_pos rfl, if_neg h1, if_neg h2]
      refine ⟨by simpa [truthy, List.isEmpty_iff] using toList_ne_nil_of_ne_empty uri hu, ?_⟩
      rw [containsSub, infixOf_iff]
      exact List.infix_rfl

/-! ### Claim theorems -/

/-- Claim C1, counterexample: with `force_overwrite=false`, existing comment
`"zotero://select/A zotero://select/B"` and new URI `"zotero://select/C"`,
the code does NOT yield `"zotero://select/C zotero://select/B"` (it replaces
every scheme token, because `re.sub` without a count is global). -/
theorem write_uri_first_token_only_cex :
    (write_uri "zotero://select/A zotero://select/B" "zotero://select/C"
        false false).final ≠ "zotero://select/C zotero://select/B" := by
  decide

/-- Claim C1, amended: with `force_overwrite=false`, when the existing comment
does not contain the supplied URI but contains several whitespace-delimited
tokens starting with the scheme, EVERY such token is replaced by the new URI
(`re.sub` global substitution): existing comment
`"zotero://select/A zotero://select/B"` with new URI `"zotero://select/C"`
yields `"zotero://select/C zotero://select/C"`. -/
theorem write_uri_global_substitution :
    write_uri "zotero://select/A zotero://select/B" "zotero://select/C"
        false false
      = ⟨.Replaced,
         [.read, .write "zotero://select/C zotero://select/C"],
         "zotero://select/C zotero://select/C"⟩ := by
  decide

/-- Claim C2: with `force_overwrite=false` and an existing comment containing
the supplied (nonempty) URI as a substring, no write and no clear capability
call is issued regardless of `simulate_only`, the outcome is AlreadyPresent,
and the comment is unchanged. -/
theorem write_uri_already_present (comment0 uri : String) (dry_run : Bool)
    (hu : uri ≠ "") (hc : containsSub comment0 uri = true) :
    write_uri comment0 uri dry_run false
      = ⟨.AlreadyPresent, [.read], comment0⟩ := by
  have ht := truthy_of_contains comment0 uri hu hc
  rw [write_uri]
  simp [ht, hc]

/-- Witness for C2 at a concrete comment and URI. -/
theorem write_uri_already_present_witness :
    write_uri "x zotero://select/A y" "zotero://select/A" true false
      = ⟨.AlreadyPresent, [.read], "x zotero://select/A y"⟩ :=
  write_uri_already_present "x zotero://select/A y" "zotero://select/A" true
    (by decide) (by decide)

/-- Claim C3: with `simulate_only=true`, in every branch no clear and no write
capability call occurs, the initial read happens exactly when
`force_overwrite=false`, and the reported outcome equals the outcome of the
corresponding non-simulated run. -/
theorem write_uri_dry_run_frame (comment0 uri : String) (overwrite : Bool) :
    CapCall.clear ∉ (write_uri comment0 uri true overwrite).calls ∧
    (∀ t, CapCall.write t ∉ (write_uri comment0 uri true overwrite).calls) ∧
    (CapCall.read ∈ (write_uri comment0 uri true overwrite).calls ↔ overwrite = false) ∧
    (write_uri comment0 uri true overwrite).outcome
      = (write_uri comment0 uri false overwrite).outcome := by
  cases overwrite with
  | false =>
    by_cases h1 : (truthy comment0 && containsSub comment0 uri) = true
    · simp [write_uri, h1]
    · by_cases h2 : (truthy comment0 && containsSub comment0 zoteroSelect) = true
      · simp [write_uri, h1, h2]
      · simp [write_uri, h1, h2]
  | true =>
    simp [write_uri]

/-- Claim C4: with `force_overwrite=true` and `simulate_only=false`, whatever
the existing comment, the capability calls are exactly one clear followed by
one write of the URI, the final comment is the URI alone, and the outcome is
ForcedOverwrite. -/
theorem write_uri_force_overwrite (comment0 uri : String) :
    write_uri comment0 uri false true
      = ⟨.ForcedOverwrite, [.clear, .write uri], uri⟩ := rfl

/-- Claim C5: calling `write_uri` a second time with the same (nonempty) URI,
`force_overwrite=false` and `simulate_only=false`, starting from the comment
produced by the first call, yields AlreadyPresent, issues only the read call,
and leaves the comment exactly as the first call left it. -/
theorem write_uri_idempotent (comment0 uri : String) (hu : uri ≠ "") :
    write_uri (write_uri comment0 uri false false).final uri false false
      = ⟨.AlreadyPresent, [.read], (write_uri comment0 uri false false).final⟩ := by
  obtain ⟨ht, hc⟩ := final_contains comment0 uri hu
  rw [write_uri]
  simp [ht, hc]

/-- Witness for C5 starting from an empty comment. -/
theorem write_uri_idempotent_witness :
    write_uri (write_uri "" "zotero://select/items/X" false false).final
        "zotero://select/items/X" false false
      = ⟨.AlreadyPresent, [.read],
         (write_uri "" "zotero://select/items/X" false false).final⟩ :=
  write_uri_idempotent "" "zotero://select/items/X" (by decide)

/-- Claim C6: with `force_overwrite=false`, `simulate_only=false`, an existing
comment that does not contain the URI but contains the scheme marker, the new
comment is the `re.sub` substitution of the scheme tokens by the URI in place
(surrounding text preserved), written in a single write call, with outcome
Replaced; in particular `"zotero://select/items/OLD some notes"` with URI
`"zotero://select/items/NEW"` becomes
`"zotero://select/items/NEW some notes"`. -/
theorem write_uri_replaces_existing (comment0 uri : String)
    (h1 : containsSub comment0 uri = false)
    (h2 : containsSub comment0 zoteroSelect = true) :
    write_uri comment0 uri false false
      = ⟨.Replaced, [.read, .write (reSubZoteroS uri comment0)],
         reSubZoteroS uri comment0⟩ ∧
    write_uri "zotero://select/items/OLD some notes" "zotero://select/items/NEW"
        false false
      = ⟨.Replaced, [.read, .write "zotero://select/items/NEW some notes"],
         "zotero://select/items/NEW some notes"⟩ := by
  constructor
  · have ht := truthy_of_contains comment0 zoteroSelect (by decide) h2
    rw [write_uri]
    simp [ht, h1, h2]
  · decide

/-- Witness for C6 at the concrete example from the spec. -/
theorem write_uri_replaces_existing_witness :
    write_uri "zotero://select/items/OLD some notes" "zotero://select/items/NEW"
        false false
      = ⟨.Replaced,
         [.read, .write (reSubZoteroS "zotero://select/items/NEW"
            "zotero://select/items/OLD some notes")],
         reSubZoteroS "zotero://select/items/NEW"
           "zotero://select/items/OLD some notes"⟩ :=
  (write_uri_replaces_existing "zotero://select/items/OLD some notes"
    "zotero://select/items/NEW" (by decide) (by decide)).1

/-- Claim C7: with `force_overwrite=false` and `simulate_only=false`, when the
existing comment is empty, or nonempty but contains neither the URI nor the
scheme marker, the final comment is the URI alone (prior content discarded)
and the outcome is Prepended. -/
theorem write_uri_prepend (comment0 uri : String)
    (h : comment0 = "" ∨
      (containsSub comment0 uri = false ∧ containsSub comment0 zoteroSelect = false)) :
    write_uri comment0 uri false false
      = ⟨.Prepended, [.read, .write uri], uri⟩ := by
  rcases h with rfl | ⟨h1, h2⟩
  · rfl
  · rw [write_uri]
    simp [h1, h2]

/-- Witness for C7 with a nonempty comment holding no URI. -/
theorem write_uri_prepend_witness :
    write_uri "just some notes" "zotero://select/items/X" false false
      = ⟨.Prepended, [.read, .write "zotero://select/items/X"],
         "zotero://select/items/X"⟩ :=
  write_uri_prepend "just some notes" "zotero://select/items/X"
    (Or.inr ⟨by decide, by decide⟩)

/-- Recognizer for write (`set_comments`) capability calls. -/
def isWriteCall : CapCall → Bool
  | .write _ => true
  | _ => false

/-- Recognizer for clear (`clear_comments`) capability calls. -/
def isClearCall : CapCall → Bool
  | .clear => true
  | _ => false

/-- Claim C8: every invocation, whatever the comment and the two flags, issues
at most one write capability call and at most one clear capability call. -/
theorem write_uri_at_most_one_mutation (comment0 uri : String)
    (dry_run overwrite : Bool) :
    (write_uri comment0 uri dry_run overwrite).calls.countP isWriteCall ≤ 1 ∧
    (write_uri comment0 uri dry_run overwrite).calls.countP isClearCall ≤ 1 := by
  cases overwrite with
  | false =>
    by_cases h1 : (truthy comment0 && containsSub comment0 uri) = true
    · simp [write_uri, h1, List.countP_cons, isWriteCall, isClearCall]
    · cases dry_run with
      | false => simp [write_uri, h1, List.countP_cons, isWriteCall, isClearCall]
      | true => simp [write_uri, h1, List.countP_cons, isWriteCall, isClearCall]
  | true =>
    cases dry_run with
    | false => simp [write_uri, List.countP_cons, isWriteCall, isClearCall]
    | true => simp [write_uri, List.countP_cons, isWriteCall, isClearCall]

/-- Claim C10: the trigger for the Replaced branch tests the substring
`zotero://select`, while the substituted pattern is `zotero://` followed by
non-whitespace: a comment holding both a select token and a token of another
form (`zotero://open/abc`) gets the non-select token replaced too, whereas a
comment holding only the non-select token does not trigger replacement at all
(outcome Prepended). -/
theorem write_uri_trigger_vs_pattern :
    (write_uri "zotero://open/abc zotero://select/X" "zotero://select/C"
        false false).final = "zotero://select/C zotero://select/C" ∧
    (write_uri "zotero://open/abc" "zotero://select/C" false false).outcome
      = .Prepended := by
  exact ⟨by decide, by decide⟩

/-! ### Failure propagation

`write_uri` contains no `try`/`except`: a Python exception raised by any
`_FINDER_SCRIPTS.call` aborts the method at that point and propagates to the
caller.  We embed this by letting each capability call either return a value
or raise an opaque error, and by threading the raise through `Except` exactly
as Python's exception propagation does. -/

/-- An error raised by an AppleScript capability call. -/
inductive CapErr where
  | capabilityError : CapErr
deriving DecidableEq

/-- Behaviour of the three capability routines for one invocation: each call
either returns (`ok`) or raises (`error`). -/
structure CapSpec where
  readRes : Except CapErr String
  clearRes : Except CapErr Unit
  writeRes : String → Except CapErr Unit

/-- Embedding of `write_uri` with a possibly-failing capability: returns the
outcome or the propagated error, together with the capability calls issued
(in order) up to and including the failing one.  The structure mirrors the
source exactly; there is no handler, so evaluation stops at the first
raising call. -/
def write_uriE (cap : CapSpec) (uri : String) (dry_run overwrite : Bool) :
    Except CapErr Outcome × List CapCall :=
  if overwrite = false then
    match cap.readRes with
    | .error e => (.error e, [.read])
    | .ok comments =>
      if truthy comments && containsSub comments uri then
        (.ok .AlreadyPresent, [.read])
      else
        let res : Outcome × String :=
          if truthy comments && containsSub comments zoteroSelect then
            (.Replaced, reSubZoteroS uri comments)
          else
            (.Prepended, uri)
        if dry_run = false then
          match cap.writeRes res.2 with
          | .error e => (.error e, [.read, .write res.2])
          | .ok _ => (.ok res.1, [.read, .write res.2])
        else
          (.ok res.1, [.read])
  else
    if dry_run = false then
      match cap.clearRes with
      | .error e => (.error e, [.clear])
      | .ok _ =>
        match cap.writeRes uri with
        | .error e => (.error e, [.clear, .write uri])
        | .ok _ => (.ok .ForcedOverwrite, [.clear, .write uri])
    else
      (.ok .ForcedOverwrite, [])

/-- `capFails cap c e`: the capability call `c` raises the error `e`. -/
def capFails (cap : CapSpec) : CapCall → CapErr → Prop
  | .read, e => cap.readRes = .error e
  | .clear, e => cap.clearRes = .error e
  | .write t, e => cap.writeRes t = .error e

/-- Claim C9: when a capability call raises, `write_uri` neither catches nor
retries nor repairs: the returned error is exactly the capability's error,
the failing call is the last call issued (no further capability calls), and
every call issued before it had succeeded. -/
theorem write_uriE_error_propagates (cap : CapSpec) (uri : String)
    (dry_run overwrite : Bool) (e : CapErr)
    (h : (write_uriE cap uri dry_run overwrite).1 = .error e) :
    ∃ done c, (write_uriE cap uri dry_run overwrite).2 = done ++ [c] ∧
      capFails cap c e ∧
      ∀ c₀ ∈ done, ∀ e₀, ¬ capFails cap c₀ e₀ := by
  cases overwrite with
  | true =>
    cases dry_run with
    | true =>
      rw [write_uriE] at h
      simp at h
    | false =>
      cases hcl : cap.clearRes with
      | error e₁ =>
        have hres : write_uriE cap uri false true = (.error e₁, [.clear]) := by
          rw [write_uriE]; simp [hcl]
        rw [hres] at h ⊢
        have he : e₁ = e := Except.error.inj h
        subst he
        exact ⟨[], .clear, by simp, hcl, by simp⟩
      | ok u =>
        cases hw : cap.writeRes uri with
        | error e₁ =>
          have hres : write_uriE cap uri false true
              = (.error e₁, [.clear, .write uri]) := by
            rw [write_uriE]; simp [hcl, hw]
          rw [hres] at h ⊢
          have he : e₁ = e := Except.error.inj h
          subst he
          refine ⟨[.clear], .write uri, by simp, hw, ?_⟩
          intro c₀ hc₀ e₀ hf
          rw [List.mem_singleton] at hc₀
          subst hc₀
          rw [show capFails cap .clear e₀ = (cap.clearRes = .error e₀) from rfl,
            hcl] at hf
          exact absurd hf (by simp)
        | ok u₂ =>
          have hres : write_uriE cap uri false true
              = (.ok .ForcedOverwrite, [.clear, .write uri]) := by
            rw [write_uriE]; simp [hcl, hw]
          rw [hres] at h
          simp at h
  | false =>
    cases hr : cap.readRes with
    | error e₁ =>
      have hres : write_uriE cap uri dry_run false = (.error e₁, [.read]) := by
        rw [write_uriE]; simp [hr]
      rw [hres] at h ⊢
      have he : e₁ = e := Except.error.inj h
      subst he
      exact ⟨[], .read, by simp, hr, by simp⟩
    | ok comments =>
      by_cases h1 : (truthy comments && containsSub comments uri) = true
      · have hres : write_uriE cap uri dry_run false
            = (.ok .AlreadyPresent, [.read]) := by
          rw [write_uriE]; simp [hr, h1]
        rw [hres] at h
        simp at h
      · by_cases h2 : (truthy comments && containsSub comments zoteroSelect) = true
        · cases dry_run with
          | true =>
            have hres : write_uriE cap uri true false
                = (.ok .Replaced, [.read]) := by
              rw [write_uriE]; simp [hr, h1, h2]
            rw [hres] at h
            simp at h
          | false =>
            cases hw : cap.writeRes (reSubZoteroS uri comments) with
            | error e₁ =>
              have hres : write_uriE cap uri false false
                  = (.error e₁, [.read, .write (reSubZoteroS uri comments)]) := by
                rw [write_uriE]; simp [hr, h1, h2, hw]
              rw [hres] at h ⊢
              have he : e₁ = e := Except.error.inj h
              subst he
              refine ⟨[.read], .write (reSubZoteroS uri comments), by simp, hw, ?_⟩
              intro c₀ hc₀ e₀ hf
              rw [List.mem_singleton] at hc₀
              subst hc₀
              rw [show capFails cap .read e₀ = (cap.readRes = .error e₀) from rfl,
                hr] at hf
              exact absurd hf (by simp)
            | ok u =>
              have hres : write_uriE cap uri false false
                  = (.ok .Replaced, [.read, .write (reSubZoteroS uri comments)]) := by
                rw [write_uriE]; simp [hr, h1, h2, hw]
              rw [hres] at h
              simp at h
        · cases dry_run with
          | true =>
            have hres : write_uriE cap uri true false
                = (.ok .Prepended, [.read]) := by
              rw [write_uriE]; simp [hr, h1, h2]
            rw [hres] at h
            simp at h
          | false =>
            cases hw : cap.writeRes uri with
            | error e₁ =>
              have hres : write_uriE cap uri false false
                  = (.error e₁, [.read, .write uri]) := by
                rw [write_uriE]; simp [hr, h1, h2, hw]
              rw [hres] at h ⊢
              have he : e₁ = e := Except.error.inj h
              subst he
              refine ⟨[.read], .write uri, by simp, hw, ?_⟩
              intro c₀ hc₀ e₀ hf
              rw [List.mem_singleton] at hc₀
              subst hc₀
              rw [show capFails cap .read e₀ = (cap.readRes = .error e₀) from rfl,
                hr] at hf
              exact absurd hf (by simp)
            | ok u =>
              have hres : write_uriE cap uri false false
                  = (.ok .Prepended, [.read, .write uri]) := by
                rw [write_uriE]; simp [hr, h1, h2, hw]
              rw [hres] at h
              simp at h

/-- Witness for C9 with a capability whose read raises. -/
theorem write_uriE_error_propagates_witness :
    ∃ done c,
      (write_uriE ⟨.error .capabilityError, .ok (), fun _ => .ok ()⟩
          "zotero://select/items/X" false false).2 = done ++ [c] ∧
      capFails ⟨.error .capabilityError, .ok (), fun _ => .ok ()⟩ c
        .capabilityError ∧
      ∀ c₀ ∈ done, ∀ e₀,
        ¬ capFails ⟨.error .capabilityError, .ok (), fun _ => .ok ()⟩ c₀ e₀ :=
  write_uriE_error_propagates ⟨.error .capabilityError, .ok (), fun _ => .ok ()⟩
    "zotero://select/items/X" false false .capabilityError rfl

end Zuppa
